import Mathlib

/-!
# Verification of the anotamela/anotala annotation core

Shallow embedding, in Lean 4, of the batching, demultiplexing, caching and
parsing fragments of the `anotamela`/`anotala` repository, together with
theorems settling the specification claims about them.

Python `None`-carrying iterables are embedded as `List (Option α)`;
Python dicts as association lists with unique keys (insertion order kept);
XML documents as a simple element tree; fallible Python code (KeyError,
ValueError) as `Except String`.
-/

namespace Anota

/-! ## `helpers.grouped` (src/anotamela/helpers/helpers.py, lines 10-15)

```python
def grouped(iterable, group_size):
    args = [iter(iterable)] * group_size
    return ([e for e in t if e is not None] for t in zip_longest(*args))
```

`zip_longest(*[iter(x)] * g)` pulls round-robin from a single shared
iterator, so it yields the consecutive `g`-windows of the input, the final
window padded with `None` (the default fillvalue); each window is then
filtered of `None` elements.  With `g = 0`, `zip_longest()` of zero
iterables yields nothing.  The recursion is fuelled by the input length so
that every definition reduces in the kernel. -/

/-- Consecutive windows of size `g` of a list (no padding); `fuel` bounds
the recursion depth and is instantiated with the list length. -/
def chunkGo (g : Nat) : Nat → List α → List (List α)
  | _, [] => []
  | 0, _ :: _ => []
  | Nat.succ fuel, x :: xs => ((x :: xs).take g) :: chunkGo g fuel ((x :: xs).drop g)

/-- The consecutive `g`-windows of `l`: sizes `g, g, ..., r` with a final
remainder window `r ≤ g`. -/
def winChunks (g : Nat) (l : List α) : List (List α) :=
  if g = 0 then [] else chunkGo g l.length l

/-- The tuples yielded by `zip_longest(*[iter(l)] * g)`: the `g`-windows of
`l`, the last one padded with `none` up to size `g`. -/
def padGo (g : Nat) : Nat → List (Option α) → List (List (Option α))
  | _, [] => []
  | 0, _ :: _ => []
  | Nat.succ fuel, x :: xs =>
      ((x :: xs).take g ++ List.replicate (g - (x :: xs).length) none)
        :: padGo g fuel ((x :: xs).drop g)

/-- `zip_longest(*[iter(l)] * g)` as a list of tuples (tuples as lists). -/
def zip_longest_chunks (g : Nat) (l : List (Option α)) : List (List (Option α)) :=
  if g = 0 then [] else padGo g l.length l

/-- `helpers.grouped(iterable, group_size)`: windows of the input padded by
`zip_longest`, each filtered of `None` elements. -/
def grouped (l : List (Option α)) (g : Nat) : List (List α) :=
  (zip_longest_chunks g l).map (fun t => t.filterMap id)

/-! ## Python dictionaries as association lists

A Python `dict` is embedded as an association list with unique keys kept in
insertion order; `d[k] = v` updates in place when the key exists and appends
otherwise, `del d[k]` removes the key or raises `KeyError`. -/

/-- `k in d` for a Python dict. -/
def hasKey (d : List (String × V)) (k : String) : Bool :=
  d.any (fun p => p.1 == k)

/-- `d.get(k)`: `None` when the key is absent. -/
def getVal (d : List (String × V)) (k : String) : Option V :=
  (d.find? (fun p => p.1 == k)).map Prod.snd

/-- `d[k] = v`: in-place update when `k` is present, append otherwise (this
is also the semantics of the dict literal `{**d, k: v}`). -/
def setKey (d : List (String × V)) (k : String) (v : V) : List (String × V) :=
  if hasKey d k then d.map (fun p => if p.1 == k then (k, v) else p)
  else d ++ [(k, v)]

/-- `del d[k]`: removes the key, `KeyError` when it is absent. -/
def delKey (d : List (String × V)) (k : String) : Except String (List (String × V)) :=
  if hasKey d k then Except.ok (d.filter (fun p => p.1 != k))
  else Except.error ("KeyError: " ++ k)

/-! ## `EnsemblAnnotator._parse_annotation`
(src/anotamela/annotators/ensembl_annotator.py, lines 71-86)

```python
@classmethod
def _parse_annotation(cls, annotation):
    if not cls.full_info:
        keys_to_remove = ['populations', 'population_genotypes', 'genotypes']
        for key in keys_to_remove:
            del(annotation[key])
    maf = annotation.get('MAF')
    if maf:
        annotation['MAF'] = float(maf)
    return annotation
```

The function mutates the dict `annotation` in place (`del`, item
assignment) and returns that same object, so the post-state of the argument
equals the returned record; invoking the method a second time on the same
mapping object is therefore `parse_ann` applied to the first call's output.
The values are kept abstract in a type `V`: `toFloat` stands for Python's
`float()` and `truthy` for Python truthiness — both external to the
repository. -/

namespace EnsemblAnnotator

/-- The `del annotation[key]` loop over
`['populations', 'population_genotypes', 'genotypes']`. -/
def remove_keys (d : List (String × V)) : Except String (List (String × V)) :=
  match delKey d "populations" with
  | Except.error e => Except.error e
  | Except.ok a =>
    match delKey a "population_genotypes" with
    | Except.error e => Except.error e
    | Except.ok b => delKey b "genotypes"

def parse_ann (toFloat : V → V) (truthy : V → Bool) (full_info : Bool)
    (d : List (String × V)) : Except String (List (String × V)) :=
  match (if full_info then Except.ok d else remove_keys d) with
  | Except.error e => Except.error e
  | Except.ok d1 =>
    match getVal d1 "MAF" with
    | some maf =>
        if truthy maf then Except.ok (setKey d1 "MAF" (toFloat maf))
        else Except.ok d1
    | none => Except.ok d1

end EnsemblAnnotator

/-! ## `RedisCache` (src/anotala/cache/redis_cache.py)

```python
def _client_get(self, ids, namespace, as_json):
    keys = [self._id_to_key(id_, namespace) for id_ in ids]
    annotations = {id_: ann.decode('utf-8')
                   for id_, ann in zip(ids, self.client.mget(keys)) if ann}
    if as_json:
        annotations = self._jsonload_dict_values(annotations)
    return annotations

@staticmethod
def _id_to_key(id_, namespace):
    return '{}:{}'.format(namespace, id_)
```

The Redis backend is embedded as a partial map `store` from key to stored
value; `mget` returns, for each queried key, the stored value or `None`,
in the order of the queried keys, and never raises for a missing key.
Stored values are modelled post-UTF-8: `.decode('utf-8')` is the identity
here.  `if ann` keeps an entry only when the fetched value is truthy, which
for bytes excludes both `None` (missing key) and the empty value. -/

namespace RedisCache

def id_to_key (id_ ns : String) : String := ns ++ ":" ++ id_

/-- Modelled from the spec: `Cache._jsonload_dict_values` (defined in the
cache base class, which is not under src/) deserializes each value of the
mapping; the JSON decoder itself is abstracted as the parameter `load`. -/
def jsonload_dict_values (load : String → String) (d : List (String × String)) :
    List (String × String) :=
  d.map (fun p => (p.1, load p.2))

/-- One entry of the dict comprehension: `{id_: ann.decode('utf-8') ... if
ann}` keeps a pair only when the fetched value is truthy (present and
non-empty). -/
def keep_truthy (q : String × Option String) : Option (String × String) :=
  match q.2 with
  | some v => if v == "" then none else some (q.1, v)
  | none => none

def client_get (store : String → Option String) (load : String → String)
    (ids : List String) (ns : String) (as_json : Bool) : List (String × String) :=
  let anns := (ids.map (fun i => (i, store (id_to_key i ns)))).filterMap keep_truthy
  if as_json then jsonload_dict_values load anns else anns

end RedisCache

/-! ## XML documents

A parsed XML document is a forest of elements; BeautifulSoup's
`soup.select('Tag')` collects every element of the document with that tag,
in document (preorder) order, and `element['Attr']` raises `KeyError` when
the attribute is absent.  Serializing a fragment back to text (`str(el)`)
is injective, so a fragment is embedded as the element itself. -/

inductive Xml where
  | elem (tag : String) (attrs : List (String × String)) (children : List Xml)

def Xml.tag : Xml → String
  | .elem t _ _ => t

def Xml.attrs : Xml → List (String × String)
  | .elem _ a _ => a

def Xml.children : Xml → List Xml
  | .elem _ _ cs => cs

/-- `element.get(key)`: the attribute value, or `None`. -/
def Xml.attr? (e : Xml) (k : String) : Option String :=
  (e.attrs.find? (fun p => p.1 == k)).map Prod.snd

/-- `element[key]`: the attribute value, or a `KeyError`. -/
def Xml.attrE (e : Xml) (k : String) : Except String String :=
  match e.attr? k with
  | some v => Except.ok v
  | none => Except.error ("KeyError: " ++ k)

/-- All elements of a forest in document (preorder) order. -/
def allElems : List Xml → List Xml
  | [] => []
  | Xml.elem t a cs :: rest => Xml.elem t a cs :: (allElems cs ++ allElems rest)

/-- `soup.select(tag)` over a whole document. -/
def selectTag (t : String) (doc : List Xml) : List Xml :=
  (allElems doc).filter (fun e => e.tag == t)

/-! ## `ClinvarVariationAnnotator._annotations_by_id`
(src/anotala/annotators/clinvar_variation_annotator.py, lines 23-33)

```python
@classmethod
def _annotations_by_id(cls, ids, xml):
    soup = BeautifulSoup(xml, 'lxml-xml')
    for variation_report in soup.select('VariationReport'):
        variation_id = cls._extract_variation_id(variation_report)
        yield (variation_id, str(variation_report))
```

with `_extract_variation_id(soup) = soup['VariationID']`.  The generator is
consumed into a dict by `EntrezAnnotator._batch_query`, so the exception of
a missing attribute propagates and otherwise the pairs are collected in
document order; the `ids` argument is never used. -/

namespace ClinvarVariationAnnotator

def select_variation_reports (doc : List Xml) : List Xml :=
  selectTag "VariationReport" doc

def extract_variation_id (e : Xml) : Except String String :=
  e.attrE "VariationID"

def pairs_of_reports : List Xml → Except String (List (String × Xml))
  | [] => Except.ok []
  | e :: rest =>
    match extract_variation_id e with
    | Except.error err => Except.error err
    | Except.ok v =>
      match pairs_of_reports rest with
      | Except.error err => Except.error err
      | Except.ok r => Except.ok ((v, e) :: r)

def annotations_by_id (_ids : List String) (doc : List Xml) :
    Except String (List (String × Xml)) :=
  pairs_of_reports (select_variation_reports doc)

/-! ### `ClinvarVariationAnnotator._parse_clinical_significances`
(same file, lines 95-108)

```python
clinical_significances = []
for sig_ in clinsigs.split('/'):
    for sig in sig_.split(','):
        clinical_significance = sig.strip()
        if clinical_significance not in clinical_significances:
            clinical_significances.append(clinical_significance)
return clinical_significances
```

Python strings are embedded as `List Char` so that the splitting functions
compute in the kernel; `pySplit` is Python's `str.split` with a one-character
separator and `pyStrip` is `str.strip()` (restricted to the ASCII whitespace
`' '`, `'\t'`, `'\r'`, `'\n'`, which covers every value the source meets). -/

def pySplit (sep : Char) (s : List Char) : List (List Char) :=
  s.foldr (fun c acc =>
    match acc with
    | [] => [[c]]
    | h :: t => if c = sep then [] :: (h :: t) else (c :: h) :: t) [[]]

def pyStrip (s : List Char) : List Char :=
  ((s.dropWhile Char.isWhitespace).reverse.dropWhile Char.isWhitespace).reverse

def parse_clinical_significances (clinsigs : List Char) : List (List Char) :=
  (pySplit '/' clinsigs).foldl (fun acc sig1 =>
    (pySplit ',' sig1).foldl (fun acc2 sig =>
      if pyStrip sig ∈ acc2 then acc2 else acc2 ++ [pyStrip sig]) acc) []

/-- Written from the spec's words, for comparison: keep the first occurrence
of each value, drop every later duplicate. -/
def ordered_dedup [DecidableEq α] : List α → List α
  | [] => []
  | x :: xs => x :: ordered_dedup (xs.filter (fun y => y ≠ x))
termination_by l => l.length
decreasing_by
  simp only [List.length_cons]
  exact Nat.lt_succ_of_le (List.length_filter_le _ xs)

/-- Written from the spec's words, for comparison: the stripped tokens of
the split on `'/'` and then on `','`, in order, duplicates included. -/
def clinsig_tokens (clinsigs : List Char) : List (List Char) :=
  (((pySplit '/' clinsigs).map (pySplit ',')).flatten).map pyStrip

end ClinvarVariationAnnotator

/-! ## `ClinvarRCVAnnotator._annotations_by_id`
(src/anotala/annotators/clinvar_rcv_annotator.py, lines 19-38)

```python
soup = BeautifulSoup(multi_accession_xml, 'lxml-xml')
for clinvar_set in soup.select('ClinVarSet'):
    accessions = [element['Acc'] for element in
                  clinvar_set.find_all('ClinVarAccession')
                  if element.get('Type') == 'RCV']
    try:
        accession = one(accessions)
    except ValueError:
        raise ValueError('{} accessions found (expecting one).'
                         .format(len(accessions)))
    yield (accession, str(clinvar_set))
```

`find_all` searches the descendants of the `<ClinVarSet>` element;
`more_itertools.one` raises `ValueError` when the list does not have
exactly one element. -/

namespace ClinvarRCVAnnotator

def select_clinvar_sets (doc : List Xml) : List Xml :=
  selectTag "ClinVarSet" doc

def rcv_accession_elems (s : Xml) : List Xml :=
  (allElems s.children).filter
    (fun e => e.tag == "ClinVarAccession" && e.attr? "Type" == some "RCV")

def acc_values : List Xml → Except String (List String)
  | [] => Except.ok []
  | e :: rest =>
    match e.attrE "Acc" with
    | Except.error err => Except.error err
    | Except.ok v =>
      match acc_values rest with
      | Except.error err => Except.error err
      | Except.ok r => Except.ok (v :: r)

def process_sets : List Xml → Except String (List (String × Xml))
  | [] => Except.ok []
  | s :: rest =>
    match acc_values (rcv_accession_elems s) with
    | Except.error err => Except.error err
    | Except.ok accs =>
      match accs with
      | [a] =>
        match process_sets rest with
        | Except.error err => Except.error err
        | Except.ok r => Except.ok ((a, s) :: r)
      | _ =>
        Except.error (toString accs.length ++ " accessions found (expecting one).")

def annotations_by_id (_ids : List String) (doc : List Xml) :
    Except String (List (String × Xml)) :=
  process_sets (select_clinvar_sets doc)

end ClinvarRCVAnnotator

/-! ## `EntrezAnnotator` (src/anotala/annotators/base_classes/entrez_annotator.py)

### `_parse_element` (lines 157-190)

The Biopython Entrez tree is a dynamically-typed nest of list-like,
dict-like and string-with-attributes nodes; `_parse_element` dispatches on
`type(element)`:

```python
parse_functions = {ListElement: _parse_listelement, list: _parse_listelement,
                   StringElement: _parse_stringelement,
                   DictionaryElement: _parse_dictelement, dict: _parse_dictelement,
                   StructureElement: _parse_dictelement}
if type(element) in parse_functions:
    return parse_functions[type(element)](element)
else:
    return element
```

with `_parse_listelement` mapping over the children,
`_parse_dictelement` mapping over the values, and

```python
def _parse_stringelement(stringelement):
    if hasattr(stringelement, 'attributes'):
        return {**stringelement.attributes, 'value': str(stringelement)}
    else:
        return str(stringelement)
```

`PyTree` is the tagged union of the input node kinds (`stringEl` with
`attributes : Option _` for the presence or absence of the `attributes`
attribute, `otherEl` for any other type, carried opaquely); `PyVal` is the
type of normalized results. -/

inductive PyTree where
  | stringEl (text : String) (attributes : Option (List (String × String)))
  | listEl (children : List PyTree)
  | dictEl (entries : List (String × PyTree))
  | otherEl (payload : String)

inductive PyVal where
  | str (s : String)
  | list (elems : List PyVal)
  | dict (entries : List (String × PyVal))
  | otherVal (payload : String)

namespace EntrezAnnotator

/-- `{**attributes, 'value': str(stringelement)}` when the node carries
attributes, the plain string otherwise.  The dict literal updates a
pre-existing `value` key in place (`setKey`). -/
def parse_stringelement (text : String) (attributes : Option (List (String × String))) :
    PyVal :=
  match attributes with
  | some attrs =>
      PyVal.dict (setKey (attrs.map (fun p => (p.1, PyVal.str p.2))) "value" (PyVal.str text))
  | none => PyVal.str text

mutual

def parse_element : PyTree → PyVal
  | .stringEl t a => parse_stringelement t a
  | .listEl cs => PyVal.list (parse_list cs)
  | .dictEl es => PyVal.dict (parse_entries es)
  | .otherEl p => PyVal.otherVal p

def parse_list : List PyTree → List PyVal
  | [] => []
  | c :: cs => parse_element c :: parse_list cs

def parse_entries : List (String × PyTree) → List (String × PyVal)
  | [] => []
  | (k, v) :: es => (k, parse_element v) :: parse_entries es

end

/-! ### `_epost_query` (lines 136-155)

```python
handle = Entrez.epost(db=..., id=','.join(ids))
job_data = Entrez.read(handle)
for offset in tqdm(list(range(0, len(ids), self.batch_size))):
    fetch_handle = Entrez.efetch(..., webenv=job_data['WebEnv'],
                                 query_key=job_data['QueryKey'],
                                 retstart=offset, retmax=self.batch_size)
    yield ids[offset:offset+self.batch_size], fetch_handle
```

The network side is opaque; what the code determines is: the identifier
string posted once to create the server-side job, the offsets of the pages
retrieved, and the slice of the original identifier list each page is
paired with.  `pyRange n b` is Python's `range(0, n, b)` for `b > 0`. -/

def pyRange (stop step : Nat) : List Nat :=
  List.range' 0 ((stop + step - 1) / step) step

/-- The submitted `','.join(ids)` together with the `(retstart offset,
ids[offset:offset+batch_size])` page list. -/
def epost_query (ids : List String) (batch_size : Nat) :
    String × List (Nat × List String) :=
  (String.intercalate "," ids,
   (pyRange ids.length batch_size).map
     (fun offset => (offset, (ids.drop offset).take batch_size)))

end EntrezAnnotator

/-! ### Chunking lemmas -/

/-- Ceiling-division recurrence: one window of size `g` removed from a
nonempty list accounts for one unit of `⌈n/g⌉`. -/
theorem ceil_div_step {g n : Nat} (hg : 0 < g) (hn : 1 ≤ n) :
    (n - g + g - 1) / g + 1 = (n + g - 1) / g := by
  rcases Nat.lt_or_ge g n with h | h
  · have h1 : n - g + g - 1 = ((n - 1) - g) + g := by omega
    have h2 : n + g - 1 = (n - 1) + g := by omega
    have h3 : n - 1 - g + g = n - 1 := by omega
    rw [h1, h2, Nat.add_div_right _ hg, Nat.add_div_right _ hg]
    have h4 : (n - 1) / g = ((n - 1 - g) + g) / g := by rw [h3]
    rw [h4, Nat.add_div_right _ hg]
  · have h1 : n - g = 0 := by omega
    have h2 : (n + g - 1) / g = 1 := Nat.div_eq_of_lt_le (by omega) (by omega)
    have h3 : (n - g + g - 1) / g = 0 := by
      rw [h1]
      exact Nat.div_eq_of_lt (by omega)
    rw [h2, h3]

theorem chunkGo_join {g : Nat} (hg : 0 < g) :
    ∀ (fuel : Nat) (l : List α), l.length ≤ fuel → (chunkGo g fuel l).flatten = l := by
  intro fuel
  induction fuel with
  | zero =>
    intro l hl
    have : l = [] := List.eq_nil_of_length_eq_zero (Nat.le_zero.mp hl)
    subst this
    simp [chunkGo]
  | succ f ih =>
    intro l hl
    match l with
    | [] => simp [chunkGo]
    | x :: xs =>
      have hdrop : ((x :: xs).drop g).length ≤ f := by
        simp only [List.length_drop]
        omega
      simp only [chunkGo, List.flatten_cons, ih _ hdrop]
      exact List.take_append_drop g (x :: xs)

theorem chunkGo_length {g : Nat} (hg : 0 < g) :
    ∀ (fuel : Nat) (l : List α), l.length ≤ fuel →
      (chunkGo g fuel l).length = (l.length + g - 1) / g := by
  intro fuel
  induction fuel with
  | zero =>
    intro l hl
    have : l = [] := List.eq_nil_of_length_eq_zero (Nat.le_zero.mp hl)
    subst this
    simp only [chunkGo, List.length_nil]
    rw [Nat.div_eq_of_lt (by omega)]
  | succ f ih =>
    intro l hl
    match l with
    | [] =>
      simp only [chunkGo, List.length_nil]
      rw [Nat.div_eq_of_lt (by omega)]
    | x :: xs =>
      have hdrop : ((x :: xs).drop g).length ≤ f := by
        simp only [List.length_drop]
        omega
      simp only [chunkGo, List.length_cons, ih _ hdrop, List.length_drop]
      exact ceil_div_step hg (by omega)

theorem chunkGo_get_length {g : Nat} (hg : 0 < g) :
    ∀ (fuel : Nat) (l : List α) (_ : l.length ≤ fuel) (i : Nat)
      (hi : i < (chunkGo g fuel l).length),
      ((chunkGo g fuel l).get ⟨i, hi⟩).length = min g (l.length - g * i) := by
  intro fuel
  induction fuel with
  | zero =>
    intro l hl i hi
    have : l = [] := List.eq_nil_of_length_eq_zero (Nat.le_zero.mp hl)
    subst this
    simp [chunkGo] at hi
  | succ f ih =>
    intro l hl i hi
    match l with
    | [] => simp [chunkGo] at hi
    | x :: xs =>
      have hdrop : ((x :: xs).drop g).length ≤ f := by
        simp only [List.length_drop]
        omega
      match i with
      | 0 =>
        have hhead : (chunkGo g (f + 1) (x :: xs)).get ⟨0, hi⟩ = (x :: xs).take g := rfl
        rw [hhead, List.length_take]
        omega
      | Nat.succ j =>
        simp only [chunkGo, List.get_cons_succ]
        have hj : j < (chunkGo g f ((x :: xs).drop g)).length := by
          simp only [chunkGo, List.length_cons] at hi
          omega
        rw [ih _ hdrop j hj]
        simp only [List.length_drop]
        congr 1
        rw [Nat.mul_succ]
        omega

theorem filterMap_id_replicate_none (n : Nat) :
    (List.replicate n (none : Option α)).filterMap id = [] := by
  induction n with
  | zero => rfl
  | succ k ih => simp [List.replicate_succ, ih]

theorem padGo_filterMap (g : Nat) :
    ∀ (fuel : Nat) (l : List (Option α)),
      (padGo g fuel l).map (fun t => t.filterMap id)
        = (chunkGo g fuel l).map (fun t => t.filterMap id) := by
  intro fuel
  induction fuel with
  | zero =>
    intro l
    match l with
    | [] => rfl
    | x :: xs => rfl
  | succ f ih =>
    intro l
    match l with
    | [] => rfl
    | x :: xs =>
      simp only [padGo, chunkGo, List.map_cons, ih ((x :: xs).drop g),
        List.filterMap_append, filterMap_id_replicate_none, List.append_nil]

theorem chunkGo_map (g : Nat) (f : α → β) :
    ∀ (fuel : Nat) (l : List α),
      chunkGo g fuel (l.map f) = (chunkGo g fuel l).map (List.map f) := by
  intro fuel
  induction fuel with
  | zero =>
    intro l
    match l with
    | [] => simp [chunkGo]
    | x :: xs => simp [chunkGo, List.map_cons]
  | succ n ih =>
    intro l
    match l with
    | [] => simp [chunkGo]
    | x :: xs =>
      have h1 : (x :: xs).map f = f x :: xs.map f := rfl
      have u1 : chunkGo g (n + 1) (f x :: xs.map f)
          = ((f x :: xs.map f).take g) :: chunkGo g n ((f x :: xs.map f).drop g) := rfl
      have u2 : chunkGo g (n + 1) (x :: xs)
          = ((x :: xs).take g) :: chunkGo g n ((x :: xs).drop g) := rfl
      rw [h1, u1, u2, List.map_cons, ← h1, ← List.map_take, ← List.map_drop, ih]

theorem winChunks_flatten {g : Nat} (hg : 0 < g) (l : List α) :
    (winChunks g l).flatten = l := by
  simp only [winChunks, if_neg (by omega : ¬ g = 0)]
  exact chunkGo_join hg _ _ le_rfl

theorem winChunks_length {g : Nat} (hg : 0 < g) (l : List α) :
    (winChunks g l).length = (l.length + g - 1) / g := by
  simp only [winChunks, if_neg (by omega : ¬ g = 0)]
  exact chunkGo_length hg _ _ le_rfl

theorem winChunks_getD_length {g : Nat} (hg : 0 < g) (l : List α) (i : Nat)
    (hi : i < (winChunks g l).length) :
    ((winChunks g l).getD i []).length = min g (l.length - g * i) := by
  have he : winChunks g l = chunkGo g l.length l := by
    simp only [winChunks, if_neg (by omega : ¬ g = 0)]
  rw [he] at hi ⊢
  rw [List.getD_eq_getElem _ _ hi]
  exact chunkGo_get_length hg _ _ le_rfl i hi

theorem grouped_eq_chunkGo_filterMap {g : Nat} (hg : 0 < g) (l : List (Option α)) :
    grouped l g = (chunkGo g l.length l).map (fun t => t.filterMap id) := by
  simp only [grouped, zip_longest_chunks, if_neg (by omega : ¬ g = 0)]
  exact padGo_filterMap g l.length l

theorem filterMap_id_map_some (l : List α) : (l.map some).filterMap id = l := by
  induction l with
  | nil => rfl
  | cons x xs ih => simp [ih]

theorem grouped_map_some {g : Nat} (hg : 0 < g) (l : List α) :
    grouped (l.map some) g = winChunks g l := by
  rw [grouped_eq_chunkGo_filterMap hg, List.length_map, chunkGo_map,
    List.map_map]
  simp only [winChunks, if_neg (by omega : ¬ g = 0)]
  conv_rhs => rw [← List.map_id (chunkGo g l.length l)]
  apply List.map_congr_left
  intro w _
  exact filterMap_id_map_some w

/-! ### `range(0, n, b)` and the positional slices of `_epost_query` -/

theorem range'_add_right (s n step d : Nat) :
    List.range' (s + d) n step = (List.range' s n step).map (fun x => x + d) := by
  induction n generalizing s with
  | zero => rfl
  | succ n ih =>
    rw [List.range'_succ, List.range'_succ, List.map_cons,
      show s + d + step = s + step + d from by omega, ih (s + step)]

theorem pyRange_slices_eq_chunkGo {b : Nat} (hb : 0 < b) :
    ∀ (fuel : Nat) (l : List α), l.length ≤ fuel →
      (EntrezAnnotator.pyRange l.length b).map (fun off => (l.drop off).take b)
        = chunkGo b fuel l := by
  intro fuel
  induction fuel with
  | zero =>
    intro l hl
    have : l = [] := List.eq_nil_of_length_eq_zero (Nat.le_zero.mp hl)
    subst this
    simp only [EntrezAnnotator.pyRange, chunkGo, List.length_nil, Nat.zero_add]
    rw [Nat.div_eq_of_lt (by omega : b - 1 < b)]
    rfl
  | succ f ih =>
    intro l hl
    match l with
    | [] =>
      simp only [EntrezAnnotator.pyRange, chunkGo, List.length_nil, Nat.zero_add]
      rw [Nat.div_eq_of_lt (by omega : b - 1 < b)]
      rfl
    | x :: xs =>
      have hn : 1 ≤ (x :: xs).length := by simp
      have hcc : ((x :: xs).length + b - 1) / b
          = (((x :: xs).length - b + b - 1) / b) + 1 := (ceil_div_step hb hn).symm
      have hdrop : ((x :: xs).drop b).length ≤ f := by
        simp only [List.length_drop]
        omega
      have htail := ih ((x :: xs).drop b) hdrop
      have hlen : ((x :: xs).drop b).length = (x :: xs).length - b := by
        simp [List.length_drop]
      rw [EntrezAnnotator.pyRange] at htail ⊢
      rw [hlen] at htail
      rw [hcc, List.range'_succ, List.map_cons,
        show (0 : Nat) + b = 0 + b from rfl, range'_add_right, List.map_map]
      show ((x :: xs).drop 0).take b :: _ = _
      rw [List.drop_zero]
      show (x :: xs).take b
          :: (List.range' 0 (((x :: xs).length - b + b - 1) / b) b).map
              ((fun off => ((x :: xs).drop off).take b) ∘ (fun x => x + b))
        = chunkGo b (f + 1) (x :: xs)
      have hfun : ((fun off => ((x :: xs).drop off).take b) ∘ (fun x => x + b))
          = (fun off => (((x :: xs).drop b).drop off).take b) := by
        funext off
        simp only [Function.comp_apply, List.drop_drop]
        rw [show b + off = off + b from by omega]
      rw [hfun, htail]
      rfl

/-- Every offset produced by `range(0, n, b)` is strictly below `n`. -/
theorem mem_pyRange_lt {b n o : Nat} (hb : 0 < b)
    (ho : o ∈ EntrezAnnotator.pyRange n b) : o < n := by
  rw [EntrezAnnotator.pyRange, List.mem_range'] at ho
  obtain ⟨i, hi, rfl⟩ := ho
  have hn : 1 ≤ n := by
    by_contra h
    have : n = 0 := by omega
    subst this
    have : (0 + b - 1) / b = 0 := Nat.div_eq_of_lt (by omega)
    omega
  have hceil : (n + b - 1) / b = (n - 1) / b + 1 := by
    rw [show n + b - 1 = (n - 1) + b from by omega, Nat.add_div_right _ hb]
  have hile : i ≤ (n - 1) / b := by omega
  have : b * i ≤ b * ((n - 1) / b) := Nat.mul_le_mul_left b hile
  have hdb : b * ((n - 1) / b) ≤ n - 1 := by
    rw [Nat.mul_comm]
    exact Nat.div_mul_le_self _ _
  omega

/-! ## Claim theorems about batching -/

/-- C10: `grouped` silently removes `None` elements: for every positive
group size, each yielded group equals the corresponding `group_size`-window
of the input with all `None` elements filtered out — this strips the
`zip_longest` padding of the final partial window and drops any genuine
`None` element of the input alike, so a `None` never reaches any batch and
a non-final group can be smaller than `group_size`. -/
theorem grouped_removes_none (g : Nat) (l : List (Option α)) (hg : 0 < g) :
    grouped l g = (winChunks g l).map (fun w => w.filterMap id) := by
  rw [grouped_eq_chunkGo_filterMap hg]
  simp only [winChunks, if_neg (by omega : ¬ g = 0)]

theorem grouped_removes_none_witness :
    grouped [some 1, none, some 2, some 3] 2
        = (winChunks 2 [some 1, none, some 2, some 3]).map (fun w => w.filterMap id)
      ∧ grouped [some 1, none, some 2, some 3] 2 = [[1], [2, 3]] :=
  ⟨grouped_removes_none 2 [some 1, none, some 2, some 3] (by decide), by decide⟩

/-- C4: the partition produced by `grouped` at `BATCH_SIZE = 25`, on inputs
free of `None`: 60 identifiers give exactly the sizes 25, 25, 10; an empty
input gives zero batches; in general `n` identifiers give `⌈n/25⌉`
consecutive groups whose concatenation is the input, the group at index `i`
having size `min 25 (n - 25*i)` — size 25 for every group but a smaller
final remainder when 25 does not divide `n`.  (Note: the call site
`EnsemblAnnotator._batch_query` passes the keyword argument `as_list=True`,
which `grouped` as defined in src/anotamela/helpers/helpers.py does not
accept — see the claim's record; these are the batch sizes the call is
meant to produce, proved of `grouped(ids, 25)` itself.) -/
theorem ensembl_batch_sizes_of_grouped :
    ((grouped ((List.replicate 60 "x").map some) 25).map List.length = [25, 25, 10])
    ∧ (grouped (([] : List String).map some) 25 = [])
    ∧ (∀ ids : List String,
        (grouped (ids.map some) 25).length = (ids.length + 24) / 25)
    ∧ (∀ ids : List String, (grouped (ids.map some) 25).flatten = ids)
    ∧ (∀ (ids : List String) (i : Nat), i < (grouped (ids.map some) 25).length →
        ((grouped (ids.map some) 25).getD i []).length = min 25 (ids.length - 25 * i)) := by
  refine ⟨by decide, rfl, ?_, ?_, ?_⟩
  · intro ids
    rw [grouped_map_some (by omega), winChunks_length (by omega)]
    omega
  · intro ids
    rw [grouped_map_some (by omega)]
    exact winChunks_flatten (by omega) ids
  · intro ids i hi
    rw [grouped_map_some (by omega)] at hi ⊢
    exact winChunks_getD_length (by omega) ids i hi

theorem ensembl_batch_sizes_of_grouped_witness :
    ((grouped ((List.replicate 60 "x").map some) 25).getD 2 []).length
      = min 25 ((List.replicate 60 "x").length - 25 * 2) :=
  ensembl_batch_sizes_of_grouped.2.2.2.2 (List.replicate 60 "x") 2 (by decide)

/-- C5: `EntrezAnnotator._epost_query` posts the comma-joined identifier
list once, then yields one page per offset of `range(0, len(ids),
batch_size)`, pairing each page with the slice
`ids[offset:offset+batch_size]`; every offset is strictly below `len(ids)`,
each slice has length at most `batch_size`, the concatenation of the slices
in order is exactly `ids`, and (when the identifiers are distinct) the
slices are pairwise disjoint — each identifier is covered exactly once,
purely by positional offset. -/
theorem epost_query_pages_partition (ids : List String) (b : Nat) (hb : 0 < b) :
    (EntrezAnnotator.epost_query ids b).1 = String.intercalate "," ids
    ∧ ((EntrezAnnotator.epost_query ids b).2.map Prod.fst
        = EntrezAnnotator.pyRange ids.length b)
    ∧ (∀ p ∈ (EntrezAnnotator.epost_query ids b).2,
        p.2 = (ids.drop p.1).take b ∧ p.2.length ≤ b ∧ p.1 < ids.length)
    ∧ ((EntrezAnnotator.epost_query ids b).2.map Prod.snd).flatten = ids
    ∧ (ids.Nodup →
        (EntrezAnnotator.epost_query ids b).2.Pairwise
          (fun p q => ∀ x ∈ p.2, x ∉ q.2)) := by
  have hsnd : (EntrezAnnotator.epost_query ids b).2.map Prod.snd
      = (EntrezAnnotator.pyRange ids.length b).map
          (fun off => (ids.drop off).take b) := by
    simp [EntrezAnnotator.epost_query, List.map_map, Function.comp]
  have hflat : ((EntrezAnnotator.epost_query ids b).2.map Prod.snd).flatten = ids := by
    rw [hsnd, pyRange_slices_eq_chunkGo hb ids.length ids le_rfl]
    exact chunkGo_join hb _ _ le_rfl
  refine ⟨rfl, ?_, ?_, hflat, ?_⟩
  · simp only [EntrezAnnotator.epost_query, List.map_map]
    exact List.map_id _
  · intro p hp
    simp only [EntrezAnnotator.epost_query, List.mem_map] at hp
    obtain ⟨off, hoff, rfl⟩ := hp
    refine ⟨rfl, ?_, mem_pyRange_lt hb hoff⟩
    simp only [List.length_take]
    omega
  · intro hnd
    have hnodup : ((EntrezAnnotator.epost_query ids b).2.map Prod.snd).flatten.Nodup := by
      rw [hflat]
      exact hnd
    have hpw := (List.nodup_flatten.mp hnodup).2
    rw [List.pairwise_map] at hpw
    exact hpw.imp (fun h => fun x hx => h hx)

theorem epost_query_pages_partition_witness :
    ((EntrezAnnotator.epost_query ["a", "b", "c"] 2).2.map Prod.snd).flatten
        = ["a", "b", "c"]
      ∧ (EntrezAnnotator.epost_query ["a", "b", "c"] 2).2
        = [(0, ["a", "b"]), (2, ["c"])] :=
  ⟨(epost_query_pages_partition ["a", "b", "c"] 2 (by decide)).2.2.2.1, by decide⟩

/-! ## Claim theorems about `RedisCache._client_get` -/

/-- The raw entries kept by the dict comprehension: each comes from a
requested id whose namespaced key holds a truthy (non-empty) value. -/
theorem redis_anns_mem (store : String → Option String) (ids : List String)
    (ns : String) {p : String × String}
    (hp : p ∈ (ids.map (fun i => (i, store (RedisCache.id_to_key i ns)))).filterMap
      RedisCache.keep_truthy) :
    p.1 ∈ ids ∧ store (RedisCache.id_to_key p.1 ns) = some p.2 ∧ p.2 ≠ "" := by
  rw [List.mem_filterMap] at hp
  obtain ⟨a, ha, hfa⟩ := hp
  rw [List.mem_map] at ha
  obtain ⟨i, hi, rfl⟩ := ha
  rcases hs : store (RedisCache.id_to_key i ns) with _ | v
  · rw [hs] at hfa
    simp [RedisCache.keep_truthy] at hfa
  · rw [hs] at hfa
    by_cases hv : v = ""
    · subst hv
      simp [RedisCache.keep_truthy] at hfa
    · have hne : ¬((v == "") = true) := by simpa using hv
      simp only [RedisCache.keep_truthy, if_neg hne, Option.some.injEq] at hfa
      subst hfa
      exact ⟨hi, hs, hv⟩

/-- The keys of the returned mapping do not depend on `as_json`. -/
theorem redis_client_get_keys (store : String → Option String) (load : String → String)
    (ids : List String) (ns : String) (as_json : Bool) :
    (RedisCache.client_get store load ids ns as_json).map Prod.fst
      = ((ids.map (fun i => (i, store (RedisCache.id_to_key i ns)))).filterMap
          RedisCache.keep_truthy).map Prod.fst := by
  cases as_json <;>
    simp [RedisCache.client_get, RedisCache.jsonload_dict_values, List.map_map,
      Function.comp]

/-- C7: for every id list and namespace, `RedisCache._client_get` returns a
mapping whose keys are only requested ids for which the backend holds a
value under the key `namespace:id`; an id missing from the backend is
absent from the result (and, the function being total, never an error); and
every returned value is the stored value as decoded text, JSON-deserialized
exactly when `as_json` is set. -/
theorem redis_client_get_subset (store : String → Option String)
    (load : String → String) (ids : List String) (ns : String) (as_json : Bool) :
    (∀ id_ ∈ (RedisCache.client_get store load ids ns as_json).map Prod.fst,
        id_ ∈ ids ∧ ∃ v, store (RedisCache.id_to_key id_ ns) = some v)
    ∧ (∀ id_ : String, store (RedisCache.id_to_key id_ ns) = none →
        id_ ∉ (RedisCache.client_get store load ids ns as_json).map Prod.fst)
    ∧ (∀ p ∈ RedisCache.client_get store load ids ns as_json,
        ∃ v, store (RedisCache.id_to_key p.1 ns) = some v
          ∧ p.2 = (if as_json then load v else v)) := by
  have hfst : ∀ id_ ∈ (RedisCache.client_get store load ids ns as_json).map Prod.fst,
      id_ ∈ ids ∧ ∃ v, store (RedisCache.id_to_key id_ ns) = some v := by
    intro id_ hid
    rw [redis_client_get_keys, List.mem_map] at hid
    obtain ⟨p, hp, rfl⟩ := hid
    obtain ⟨h1, h2, _⟩ := redis_anns_mem store ids ns hp
    exact ⟨h1, p.2, h2⟩
  refine ⟨hfst, ?_, ?_⟩
  · intro id_ hnone hid
    obtain ⟨_, v, hv⟩ := hfst id_ hid
    rw [hnone] at hv
    exact Option.noConfusion hv
  · intro p hp
    cases as_json with
    | false =>
      have hform : RedisCache.client_get store load ids ns false
          = (ids.map (fun i => (i, store (RedisCache.id_to_key i ns)))).filterMap
              RedisCache.keep_truthy := by
        simp [RedisCache.client_get]
      rw [hform] at hp
      obtain ⟨_, h2, _⟩ := redis_anns_mem store ids ns hp
      exact ⟨p.2, h2, by simp⟩
    | true =>
      have hform : RedisCache.client_get store load ids ns true
          = RedisCache.jsonload_dict_values load
              ((ids.map (fun i => (i, store (RedisCache.id_to_key i ns)))).filterMap
                RedisCache.keep_truthy) := by
        simp [RedisCache.client_get]
      rw [hform, RedisCache.jsonload_dict_values, List.mem_map] at hp
      obtain ⟨q, hq, rfl⟩ := hp
      obtain ⟨_, h2, _⟩ := redis_anns_mem store ids ns hq
      exact ⟨q.2, h2, by simp⟩

theorem redis_client_get_subset_witness :
    ("b" ∉ (RedisCache.client_get
        (fun k => if k = "ns:a" then some "va" else none) id
        ["a", "b"] "ns" false).map Prod.fst)
      ∧ RedisCache.client_get
          (fun k => if k = "ns:a" then some "va" else none) id
          ["a", "b"] "ns" false = [("a", "va")] :=
  ⟨(redis_client_get_subset (fun k => if k = "ns:a" then some "va" else none) id
      ["a", "b"] "ns" false).2.1 "b" (by decide), by decide⟩

/-- C9: at the `_client_get` interface an id stored with the empty value is
indistinguishable from a missing id: the truthiness filter drops it, so it
is absent from the returned mapping even though the backend holds the key,
and the whole result coincides with the result over a backend from which
every empty value has been erased. -/
theorem redis_client_get_empty_indistinct (store : String → Option String)
    (load : String → String) (ids : List String) (ns : String) (as_json : Bool) :
    (∀ id_ : String, store (RedisCache.id_to_key id_ ns) = some "" →
        id_ ∉ (RedisCache.client_get store load ids ns as_json).map Prod.fst)
    ∧ RedisCache.client_get store load ids ns as_json
        = RedisCache.client_get
            (fun k => match store k with
              | some v => if v == "" then none else some v
              | none => none)
            load ids ns as_json := by
  constructor
  · intro id_ hempty hid
    rw [redis_client_get_keys, List.mem_map] at hid
    obtain ⟨p, hp, rfl⟩ := hid
    obtain ⟨_, h2, h3⟩ := redis_anns_mem store ids ns hp
    rw [hempty] at h2
    exact h3 (Option.some.inj h2).symm
  · have hanns : ∀ ids' : List String,
        (ids'.map (fun i => (i, store (RedisCache.id_to_key i ns)))).filterMap
            RedisCache.keep_truthy
          = (ids'.map (fun i => (i, match store (RedisCache.id_to_key i ns) with
              | some v => if v == "" then none else some v
              | none => none))).filterMap RedisCache.keep_truthy := by
      intro ids'
      induction ids' with
      | nil => rfl
      | cons i rest ih =>
        simp only [List.map_cons, List.filterMap_cons]
        rcases hs : store (RedisCache.id_to_key i ns) with _ | v
        · simp only [RedisCache.keep_truthy]
          exact ih
        · by_cases hv : v = ""
          · subst hv
            simp [RedisCache.keep_truthy, ih]
          · have hne : ¬((v == "") = true) := by simpa using hv
            simp only [RedisCache.keep_truthy, if_neg hne]
            exact congrArg (List.cons (i, v)) ih
    simp only [RedisCache.client_get]
    rw [hanns ids]

theorem redis_client_get_empty_indistinct_witness :
    "a" ∉ (RedisCache.client_get (fun k => if k = "ns:a" then some "" else none) id
      ["a", "b"] "ns" false).map Prod.fst
      ∧ RedisCache.client_get (fun k => if k = "ns:a" then some "" else none) id
          ["a", "b"] "ns" false = [] :=
  ⟨(redis_client_get_empty_indistinct (fun k => if k = "ns:a" then some "" else none)
      id ["a", "b"] "ns" false).1 "a" (by decide), by decide⟩

/-! ## Claim theorems about `EnsemblAnnotator._parse_annotation` -/

theorem hasKey_filter_self (d : List (String × V)) (k : String) :
    hasKey (d.filter (fun p => p.1 != k)) k = false := by
  rw [Bool.eq_false_iff]
  intro h
  rw [hasKey, List.any_eq_true] at h
  obtain ⟨p, hp, hpk⟩ := h
  rw [List.mem_filter] at hp
  have h2 := hp.2
  simp only [bne_iff_ne, ne_eq, decide_eq_true_eq] at h2
  simp only [beq_iff_eq] at hpk
  exact h2 hpk

theorem hasKey_filter_other {k' k : String} (hne : k' ≠ k) (d : List (String × V)) :
    hasKey (d.filter (fun p => p.1 != k)) k' = hasKey d k' := by
  induction d with
  | nil => rfl
  | cons p rest ih =>
    by_cases hp : p.1 = k
    · have hfilter : (p :: rest).filter (fun p => p.1 != k)
          = rest.filter (fun p => p.1 != k) := by
        simp [List.filter_cons, hp]
      have hhead : (p.1 == k') = false := by
        simp [hp]
        exact fun h => hne h.symm
      rw [hfilter, ih]
      simp only [hasKey, List.any_cons, hhead, Bool.false_or]
    · have hfilter : (p :: rest).filter (fun p => p.1 != k)
          = p :: rest.filter (fun p => p.1 != k) := by
        simp [List.filter_cons, hp]
      rw [hfilter]
      simp only [hasKey, List.any_cons]
      exact congrArg (_ || ·) ih

theorem hasKey_map_setKey {k' k : String} (hne : k' ≠ k) (d : List (String × V))
    (v : V) :
    hasKey (d.map (fun p => if p.1 == k then (k, v) else p)) k' = hasKey d k' := by
  induction d with
  | nil => rfl
  | cons p rest ih =>
    simp only [List.map_cons, hasKey, List.any_cons]
    have hhead : ((if (p.1 == k) = true then (k, v) else p).1 == k') = (p.1 == k') := by
      by_cases hp : p.1 = k
      · rw [if_pos (by simpa using hp)]
        have ha : (k == k') = false := by
          simp
          exact fun h => hne h.symm
        have hb : (p.1 == k') = false := by
          simp [hp]
          exact fun h => hne h.symm
        rw [ha, hb]
      · rw [if_neg (by simpa using hp)]
    rw [hhead]
    exact congrArg (_ || ·) ih

theorem hasKey_setKey_other {k' k : String} (hne : k' ≠ k) (d : List (String × V))
    (v : V) : hasKey (setKey d k v) k' = hasKey d k' := by
  rw [setKey]
  by_cases hd : hasKey d k
  · rw [if_pos hd]
    exact hasKey_map_setKey hne d v
  · rw [if_neg hd, hasKey, List.any_append]
    have h1 : (k == k') = false := by
      simp
      exact fun h => hne h.symm
    simp [hasKey, h1]

/-- C3 (amended): `_parse_annotation` with `full_info = False` is
deterministic as a function of the value of its input, but it mutates the
input mapping in place, deleting the keys `populations`,
`population_genotypes` and `genotypes`; consequently a second invocation on
the same (now mutated) mapping raises `KeyError: populations` instead of
returning an equal record, whenever the mapping carried those keys. -/
theorem ensembl_parse_ann_mutates (toFloat : V → V) (truthy : V → Bool)
    (d : List (String × V))
    (h1 : hasKey d "populations" = true)
    (h2 : hasKey d "population_genotypes" = true)
    (h3 : hasKey d "genotypes" = true) :
    ∃ r, EnsemblAnnotator.parse_ann toFloat truthy false d = Except.ok r
      ∧ hasKey r "populations" = false
      ∧ EnsemblAnnotator.parse_ann toFloat truthy false r
          = Except.error "KeyError: populations" := by
  set e1 := d.filter (fun p => p.1 != "populations") with he1
  set e2 := e1.filter (fun p => p.1 != "population_genotypes") with he2
  set e3 := e2.filter (fun p => p.1 != "genotypes") with he3
  have k1 : delKey d "populations" = Except.ok e1 := by rw [delKey, if_pos h1]
  have h2' : hasKey e1 "population_genotypes" = true := by
    rw [he1, hasKey_filter_other (by decide)]
    exact h2
  have k2 : delKey e1 "population_genotypes" = Except.ok e2 := by
    rw [delKey, if_pos h2']
  have h3' : hasKey e2 "genotypes" = true := by
    rw [he2, hasKey_filter_other (by decide), he1,
      hasKey_filter_other (by decide)]
    exact h3
  have k3 : delKey e2 "genotypes" = Except.ok e3 := by
    rw [delKey, if_pos h3']
  have hpop3 : hasKey e3 "populations" = false := by
    rw [he3, hasKey_filter_other (by decide), he2,
      hasKey_filter_other (by decide), he1]
    exact hasKey_filter_self d "populations"
  have hrm : EnsemblAnnotator.remove_keys d = Except.ok e3 := by
    rw [EnsemblAnnotator.remove_keys, k1]
    show (match delKey e1 "population_genotypes" with
      | Except.error e => Except.error e
      | Except.ok b => delKey b "genotypes") = Except.ok e3
    rw [k2]
    show delKey e2 "genotypes" = Except.ok e3
    exact k3
  have hfirst : EnsemblAnnotator.parse_ann toFloat truthy false d
      = (match getVal e3 "MAF" with
        | some maf =>
            if truthy maf then Except.ok (setKey e3 "MAF" (toFloat maf))
            else Except.ok e3
        | none => Except.ok e3) := by
    rw [EnsemblAnnotator.parse_ann, if_neg (by simp), hrm]
  have hsecond : ∀ r : List (String × V), hasKey r "populations" = false →
      EnsemblAnnotator.parse_ann toFloat truthy false r
        = Except.error "KeyError: populations" := by
    intro r hr
    have hdel : delKey r "populations" = Except.error "KeyError: populations" := by
      rw [delKey, hr]
      rfl
    have hrmr : EnsemblAnnotator.remove_keys r
        = Except.error "KeyError: populations" := by
      rw [EnsemblAnnotator.remove_keys, hdel]
    rw [EnsemblAnnotator.parse_ann, if_neg (by simp), hrmr]
  rcases hm : getVal e3 "MAF" with _ | maf
  · refine ⟨e3, ?_, hpop3, hsecond e3 hpop3⟩
    rw [hfirst, hm]
  · by_cases ht : truthy maf = true
    · have hpop4 : hasKey (setKey e3 "MAF" (toFloat maf)) "populations" = false := by
        rw [hasKey_setKey_other (by decide)]
        exact hpop3
      refine ⟨setKey e3 "MAF" (toFloat maf), ?_, hpop4, hsecond _ hpop4⟩
      rw [hfirst, hm]
      show (if truthy maf = true then Except.ok (setKey e3 "MAF" (toFloat maf))
          else Except.ok e3) = _
      rw [if_pos ht]
    · refine ⟨e3, ?_, hpop3, hsecond e3 hpop3⟩
      rw [hfirst, hm]
      show (if truthy maf = true then Except.ok (setKey e3 "MAF" (toFloat maf))
          else Except.ok e3) = _
      rw [if_neg ht]

/-- A concrete Ensembl record as `_parse_annotation` receives it. -/
def ens_d0 : List (String × String) :=
  [("populations", "p"), ("population_genotypes", "q"), ("genotypes", "g1"),
   ("MAF", "0.1")]

/-- C3 counterexample: with `full_info` at its default `False`, the first
invocation consumes the three keys it deletes, and because the function
mutates its argument in place (the returned record is the argument object),
the second invocation of `_parse_annotation` on the same mapping raises
`KeyError` instead of returning an equal record — refuting both "never fails
on the second invocation" and "no hidden mutable state". -/
theorem ensembl_parse_second_call_fails :
    EnsemblAnnotator.parse_ann (V := String) id (fun v => v != "") false ens_d0
        = Except.ok [("MAF", "0.1")]
      ∧ EnsemblAnnotator.parse_ann (V := String) id (fun v => v != "") false
          [("MAF", "0.1")]
        = Except.error "KeyError: populations" :=
  ⟨rfl, rfl⟩

theorem ensembl_parse_ann_mutates_witness :
    ∃ r, EnsemblAnnotator.parse_ann (V := String) id (fun v => v != "") false ens_d0
        = Except.ok r
      ∧ hasKey r "populations" = false
      ∧ EnsemblAnnotator.parse_ann (V := String) id (fun v => v != "") false r
          = Except.error "KeyError: populations" :=
  ensembl_parse_ann_mutates id (fun v => v != "") ens_d0 (by decide) (by decide)
    (by decide)

/-! ## Claim theorems about `ClinvarVariationAnnotator._annotations_by_id` -/

theorem pairs_of_reports_ok (f : Xml → String) :
    ∀ l : List Xml, (∀ e ∈ l, e.attr? "VariationID" = some (f e)) →
      ClinvarVariationAnnotator.pairs_of_reports l
        = Except.ok (l.map (fun e => (f e, e))) := by
  intro l
  induction l with
  | nil => intro _; rfl
  | cons e rest ih =>
    intro h
    have he : ClinvarVariationAnnotator.extract_variation_id e = Except.ok (f e) := by
      rw [ClinvarVariationAnnotator.extract_variation_id, Xml.attrE,
        h e (List.mem_cons_self e rest)]
    rw [ClinvarVariationAnnotator.pairs_of_reports, he]
    show (match ClinvarVariationAnnotator.pairs_of_reports rest with
      | Except.error err => Except.error err
      | Except.ok r => Except.ok ((f e, e) :: r)) = _
    rw [ih (fun x hx => h x (List.mem_cons_of_mem e hx))]
    rfl

/-- C1: `_annotations_by_id` ignores the requested-id list and yields one
pair per `<VariationReport>` element of the response, keyed by that
element's own `VariationID` attribute — never positionally.  The keys of
the resulting mapping are exactly the `VariationID`s appearing in the
response, in document order, so a requested id with no matching element is
simply absent, with no error raised. -/
theorem clinvar_variation_demux (ids ids' : List String) (doc : List Xml)
    (f : Xml → String)
    (hattr : ∀ e ∈ ClinvarVariationAnnotator.select_variation_reports doc,
      e.attr? "VariationID" = some (f e)) :
    ClinvarVariationAnnotator.annotations_by_id ids doc
        = ClinvarVariationAnnotator.annotations_by_id ids' doc
    ∧ ClinvarVariationAnnotator.annotations_by_id ids doc
        = Except.ok ((ClinvarVariationAnnotator.select_variation_reports doc).map
            (fun e => (f e, e)))
    ∧ ∀ ps, ClinvarVariationAnnotator.annotations_by_id ids doc = Except.ok ps →
        ps.map Prod.fst
            = (ClinvarVariationAnnotator.select_variation_reports doc).map f
        ∧ ∀ q : String,
            q ∉ (ClinvarVariationAnnotator.select_variation_reports doc).map f →
              q ∉ ps.map Prod.fst := by
  have hok := pairs_of_reports_ok f _ hattr
  refine ⟨rfl, hok, ?_⟩
  intro ps hps
  rw [ClinvarVariationAnnotator.annotations_by_id, hok] at hps
  obtain rfl : ps = (ClinvarVariationAnnotator.select_variation_reports doc).map
      (fun e => (f e, e)) := (Except.ok.inj hps).symm
  have hkeys : ((ClinvarVariationAnnotator.select_variation_reports doc).map
      (fun e => (f e, e))).map Prod.fst
        = (ClinvarVariationAnnotator.select_variation_reports doc).map f := by
    rw [List.map_map]
    rfl
  refine ⟨hkeys, ?_⟩
  intro q hq
  rw [hkeys]
  exact hq

/-- A batch response carrying reports for VariationIDs 1 and 2 only. -/
def docC1 : List Xml :=
  [Xml.elem "ClinvarResult-Set" []
    [Xml.elem "VariationReport" [("VariationID", "1")] [],
     Xml.elem "VariationReport" [("VariationID", "2")] []]]

theorem clinvar_variation_demux_witness :
    ClinvarVariationAnnotator.annotations_by_id ["1", "2", "3"] docC1
        = Except.ok
            [("1", Xml.elem "VariationReport" [("VariationID", "1")] []),
             ("2", Xml.elem "VariationReport" [("VariationID", "2")] [])]
      ∧ "3" ∉ [("1", Xml.elem "VariationReport" [("VariationID", "1")] []),
               ("2", Xml.elem "VariationReport" [("VariationID", "2")] [])].map
            Prod.fst := by
  have hsel : ClinvarVariationAnnotator.select_variation_reports docC1
      = [Xml.elem "VariationReport" [("VariationID", "1")] [],
         Xml.elem "VariationReport" [("VariationID", "2")] []] := by
    simp [ClinvarVariationAnnotator.select_variation_reports, selectTag, docC1,
      allElems, Xml.tag]
  have hattr : ∀ e ∈ ClinvarVariationAnnotator.select_variation_reports docC1,
      e.attr? "VariationID" = some ((e.attr? "VariationID").getD "") := by
    rw [hsel]
    intro e he
    simp only [List.mem_cons, List.not_mem_nil, or_false] at he
    rcases he with rfl | rfl <;> rfl
  have h := (clinvar_variation_demux ["1", "2", "3"] [] docC1
    (fun e => (e.attr? "VariationID").getD "") hattr).2.1
  constructor
  · rw [h, hsel]
    rfl
  · decide

/-! ## Claim theorems about `ClinvarRCVAnnotator._annotations_by_id` -/

theorem acc_values_ok (g : Xml → String) :
    ∀ l : List Xml, (∀ e ∈ l, e.attr? "Acc" = some (g e)) →
      ClinvarRCVAnnotator.acc_values l = Except.ok (l.map g) := by
  intro l
  induction l with
  | nil => intro _; rfl
  | cons e rest ih =>
    intro h
    have he : e.attrE "Acc" = Except.ok (g e) := by
      rw [Xml.attrE, h e (List.mem_cons_self e rest)]
    rw [ClinvarRCVAnnotator.acc_values, he]
    show (match ClinvarRCVAnnotator.acc_values rest with
      | Except.error err => Except.error err
      | Except.ok r => Except.ok (g e :: r)) = _
    rw [ih (fun x hx => h x (List.mem_cons_of_mem e hx))]
    rfl

theorem process_sets_ok (g : Xml → String) :
    ∀ sets : List Xml,
      (∀ s ∈ sets, ∀ e ∈ ClinvarRCVAnnotator.rcv_accession_elems s,
        e.attr? "Acc" = some (g e)) →
      (∀ s ∈ sets, (ClinvarRCVAnnotator.rcv_accession_elems s).length = 1) →
      ClinvarRCVAnnotator.process_sets sets
        = Except.ok (sets.map
            (fun s => (((ClinvarRCVAnnotator.rcv_accession_elems s).map g).headI, s))) := by
  intro sets
  induction sets with
  | nil => intro _ _; rfl
  | cons s rest ih =>
    intro hacc hone
    have hs1 := hone s (List.mem_cons_self s rest)
    obtain ⟨e, he⟩ : ∃ e, ClinvarRCVAnnotator.rcv_accession_elems s = [e] := by
      match hl : ClinvarRCVAnnotator.rcv_accession_elems s with
      | [e] => exact ⟨e, rfl⟩
      | [] =>
        rw [hl] at hs1
        simp at hs1
      | a :: b :: t =>
        rw [hl] at hs1
        simp at hs1
    have hav : ClinvarRCVAnnotator.acc_values (ClinvarRCVAnnotator.rcv_accession_elems s)
        = Except.ok ((ClinvarRCVAnnotator.rcv_accession_elems s).map g) :=
      acc_values_ok g _ (hacc s (List.mem_cons_self s rest))
    rw [ClinvarRCVAnnotator.process_sets, hav, he]
    show (match ClinvarRCVAnnotator.process_sets rest with
      | Except.error err => Except.error err
      | Except.ok r => Except.ok ((g e, s) :: r)) = _
    rw [ih (fun x hx => hacc x (List.mem_cons_of_mem s hx))
      (fun x hx => hone x (List.mem_cons_of_mem s hx))]
    rw [List.map_cons, he]
    rfl

theorem process_sets_err (g : Xml → String) :
    ∀ sets : List Xml,
      (∀ s ∈ sets, ∀ e ∈ ClinvarRCVAnnotator.rcv_accession_elems s,
        e.attr? "Acc" = some (g e)) →
      ∀ s₀, sets.find?
          (fun s => (ClinvarRCVAnnotator.rcv_accession_elems s).length != 1) = some s₀ →
        ClinvarRCVAnnotator.process_sets sets
          = Except.error (toString (ClinvarRCVAnnotator.rcv_accession_elems s₀).length
              ++ " accessions found (expecting one).") := by
  intro sets
  induction sets with
  | nil =>
    intro _ s₀ hfind
    simp at hfind
  | cons s rest ih =>
    intro hacc s₀ hfind
    have hav : ClinvarRCVAnnotator.acc_values (ClinvarRCVAnnotator.rcv_accession_elems s)
        = Except.ok ((ClinvarRCVAnnotator.rcv_accession_elems s).map g) :=
      acc_values_ok g _ (hacc s (List.mem_cons_self s rest))
    by_cases hs : (ClinvarRCVAnnotator.rcv_accession_elems s).length = 1
    · have hcons : List.find?
          (fun x => (ClinvarRCVAnnotator.rcv_accession_elems x).length != 1) (s :: rest)
          = List.find?
            (fun x => (ClinvarRCVAnnotator.rcv_accession_elems x).length != 1) rest :=
        List.find?_cons_of_neg rest (by simp [hs])
      rw [hcons] at hfind
      obtain ⟨e, he⟩ : ∃ e, ClinvarRCVAnnotator.rcv_accession_elems s = [e] := by
        match hl : ClinvarRCVAnnotator.rcv_accession_elems s with
        | [e] => exact ⟨e, rfl⟩
        | [] =>
          rw [hl] at hs
          simp at hs
        | a :: b :: t =>
          rw [hl] at hs
          simp at hs
      rw [ClinvarRCVAnnotator.process_sets, hav, he]
      show (match ClinvarRCVAnnotator.process_sets rest with
        | Except.error err => Except.error err
        | Except.ok r => Except.ok ((g e, s) :: r)) = _
      rw [ih (fun x hx => hacc x (List.mem_cons_of_mem s hx)) s₀ hfind]
    · have hpred : ((ClinvarRCVAnnotator.rcv_accession_elems s).length != 1) = true := by
        simp [hs]
      have hcons : List.find?
          (fun x => (ClinvarRCVAnnotator.rcv_accession_elems x).length != 1) (s :: rest)
          = some s :=
        List.find?_cons_of_pos rest hpred
      rw [hcons] at hfind
      obtain rfl : s = s₀ := Option.some.inj hfind
      rw [ClinvarRCVAnnotator.process_sets, hav]
      rcases hl : ClinvarRCVAnnotator.rcv_accession_elems s with _ | ⟨a, _ | ⟨b, t⟩⟩
      · rfl
      · exfalso
        rw [hl] at hs
        simp at hs
      · show Except.error (toString ((a :: b :: t).map g).length
          ++ " accessions found (expecting one).") = _
        rw [List.length_map]

/-- C2: `_annotations_by_id` raises a `ValueError` exactly when some
`<ClinVarSet>` element carries a number of RCV-typed `<ClinVarAccession>`
sub-elements different from one; the message names the offending count and
the expected cardinality of one, no element is silently skipped and no
accession silently picked; when every `<ClinVarSet>` has exactly one RCV
accession it yields one `(accession, fragment)` pair per `<ClinVarSet>`. -/
theorem clinvar_rcv_cardinality (ids : List String) (doc : List Xml)
    (g : Xml → String)
    (hacc : ∀ s ∈ ClinvarRCVAnnotator.select_clinvar_sets doc,
      ∀ e ∈ ClinvarRCVAnnotator.rcv_accession_elems s, e.attr? "Acc" = some (g e)) :
    ((∀ s ∈ ClinvarRCVAnnotator.select_clinvar_sets doc,
        (ClinvarRCVAnnotator.rcv_accession_elems s).length = 1) →
      ClinvarRCVAnnotator.annotations_by_id ids doc
        = Except.ok ((ClinvarRCVAnnotator.select_clinvar_sets doc).map
            (fun s => (((ClinvarRCVAnnotator.rcv_accession_elems s).map g).headI, s))))
    ∧ (∀ s₀, (ClinvarRCVAnnotator.select_clinvar_sets doc).find?
          (fun s => (ClinvarRCVAnnotator.rcv_accession_elems s).length != 1)
          = some s₀ →
        ClinvarRCVAnnotator.annotations_by_id ids doc
          = Except.error
              (toString (ClinvarRCVAnnotator.rcv_accession_elems s₀).length
                ++ " accessions found (expecting one)."))
    ∧ ((∃ s ∈ ClinvarRCVAnnotator.select_clinvar_sets doc,
          (ClinvarRCVAnnotator.rcv_accession_elems s).length ≠ 1)
        ↔ ∃ msg, ClinvarRCVAnnotator.annotations_by_id ids doc
            = Except.error msg) := by
  refine ⟨fun hone => process_sets_ok g _ hacc hone,
    fun s₀ hfind => process_sets_err g _ hacc s₀ hfind, ?_, ?_⟩
  · rintro ⟨s, hs, hne⟩
    have hsome : ((ClinvarRCVAnnotator.select_clinvar_sets doc).find?
        (fun s => (ClinvarRCVAnnotator.rcv_accession_elems s).length != 1)).isSome := by
      rw [List.find?_isSome]
      exact ⟨s, hs, by simpa using hne⟩
    obtain ⟨s₀, hs₀⟩ := Option.isSome_iff_exists.mp hsome
    exact ⟨_, process_sets_err g _ hacc s₀ hs₀⟩
  · rintro ⟨msg, hmsg⟩
    by_contra hno
    push_neg at hno
    have hok := process_sets_ok g _ hacc hno
    rw [ClinvarRCVAnnotator.annotations_by_id, hok] at hmsg
    exact Except.noConfusion hmsg

/-- One well-formed `<ClinVarSet>` with its single RCV accession. -/
def rcvSet1 : Xml :=
  Xml.elem "ClinVarSet" []
    [Xml.elem "ClinVarAccession" [("Acc", "RCV1"), ("Type", "RCV")] []]

/-- A second well-formed `<ClinVarSet>`. -/
def rcvSet2 : Xml :=
  Xml.elem "ClinVarSet" []
    [Xml.elem "ClinVarAccession" [("Acc", "RCV2"), ("Type", "RCV")] []]

/-- A batch response with the two `<ClinVarSet>`s above. -/
def docC2 : List Xml :=
  [Xml.elem "ClinVarResult-Set" [] [rcvSet1, rcvSet2]]

theorem clinvar_rcv_cardinality_witness :
    ClinvarRCVAnnotator.annotations_by_id ["RCV1", "RCV2"] docC2
      = Except.ok [("RCV1", rcvSet1), ("RCV2", rcvSet2)] := by
  have hsel : ClinvarRCVAnnotator.select_clinvar_sets docC2 = [rcvSet1, rcvSet2] := by
    simp [ClinvarRCVAnnotator.select_clinvar_sets, selectTag, docC2, rcvSet1,
      rcvSet2, allElems, Xml.tag]
  have hrcv1 : ClinvarRCVAnnotator.rcv_accession_elems rcvSet1
      = [Xml.elem "ClinVarAccession" [("Acc", "RCV1"), ("Type", "RCV")] []] := by
    simp [ClinvarRCVAnnotator.rcv_accession_elems, rcvSet1, allElems, Xml.tag,
      Xml.attr?, Xml.attrs, Xml.children]
  have hrcv2 : ClinvarRCVAnnotator.rcv_accession_elems rcvSet2
      = [Xml.elem "ClinVarAccession" [("Acc", "RCV2"), ("Type", "RCV")] []] := by
    simp [ClinvarRCVAnnotator.rcv_accession_elems, rcvSet2, allElems, Xml.tag,
      Xml.attr?, Xml.attrs, Xml.children]
  have hacc : ∀ s ∈ ClinvarRCVAnnotator.select_clinvar_sets docC2,
      ∀ e ∈ ClinvarRCVAnnotator.rcv_accession_elems s,
        e.attr? "Acc" = some ((e.attr? "Acc").getD "") := by
    rw [hsel]
    intro s hs
    simp only [List.mem_cons, List.not_mem_nil, or_false] at hs
    rcases hs with rfl | rfl
    · rw [hrcv1]
      intro e he
      simp only [List.mem_cons, List.not_mem_nil, or_false] at he
      subst he
      rfl
    · rw [hrcv2]
      intro e he
      simp only [List.mem_cons, List.not_mem_nil, or_false] at he
      subst he
      rfl
  have hone : ∀ s ∈ ClinvarRCVAnnotator.select_clinvar_sets docC2,
      (ClinvarRCVAnnotator.rcv_accession_elems s).length = 1 := by
    rw [hsel]
    intro s hs
    simp only [List.mem_cons, List.not_mem_nil, or_false] at hs
    rcases hs with rfl | rfl
    · rw [hrcv1]
      rfl
    · rw [hrcv2]
      rfl
  have h := (clinvar_rcv_cardinality ["RCV1", "RCV2"] docC2
    (fun e => (e.attr? "Acc").getD "") hacc).1 hone
  rw [h, hsel, List.map_cons, List.map_cons, List.map_nil]
  rw [hrcv1, hrcv2]
  rfl

/-! ## Claim theorem about `EntrezAnnotator._parse_element` -/

theorem parse_list_eq_map (cs : List PyTree) :
    EntrezAnnotator.parse_list cs = cs.map EntrezAnnotator.parse_element := by
  induction cs with
  | nil => rw [EntrezAnnotator.parse_list, List.map_nil]
  | cons c cs ih => rw [EntrezAnnotator.parse_list, ih, List.map_cons]

theorem parse_entries_eq_map (es : List (String × PyTree)) :
    EntrezAnnotator.parse_entries es
      = es.map (fun kv => (kv.1, EntrezAnnotator.parse_element kv.2)) := by
  induction es with
  | nil => rw [EntrezAnnotator.parse_entries, List.map_nil]
  | cons kv es ih =>
    obtain ⟨k, v⟩ := kv
    rw [EntrezAnnotator.parse_entries, ih, List.map_cons]

/-- C6: `_parse_element` normalizes an Entrez tree by recursive descent: a
string-like leaf with an attributes mapping becomes the dictionary
`{**attributes, 'value': text}`, a string-like leaf without attributes
becomes the plain string, a list-like container becomes the list of its
normalized children in order, a dict-like container keeps its keys in
order with normalized values, and an element of any other type is returned
unchanged. -/
theorem parse_element_normalizes :
    (∀ (t : String) (attrs : List (String × String)),
        EntrezAnnotator.parse_element (PyTree.stringEl t (some attrs))
          = PyVal.dict (setKey (attrs.map (fun p => (p.1, PyVal.str p.2)))
              "value" (PyVal.str t)))
    ∧ (∀ t : String,
        EntrezAnnotator.parse_element (PyTree.stringEl t none) = PyVal.str t)
    ∧ (∀ cs : List PyTree,
        EntrezAnnotator.parse_element (PyTree.listEl cs)
          = PyVal.list (cs.map EntrezAnnotator.parse_element))
    ∧ (∀ es : List (String × PyTree),
        EntrezAnnotator.parse_element (PyTree.dictEl es)
          = PyVal.dict (es.map (fun kv => (kv.1, EntrezAnnotator.parse_element kv.2))))
    ∧ (∀ p : String,
        EntrezAnnotator.parse_element (PyTree.otherEl p) = PyVal.otherVal p) := by
  refine ⟨fun t attrs => ?_, fun t => ?_, fun cs => ?_, fun es => ?_, fun p => ?_⟩
  · rw [EntrezAnnotator.parse_element, EntrezAnnotator.parse_stringelement]
  · rw [EntrezAnnotator.parse_element, EntrezAnnotator.parse_stringelement]
  · rw [EntrezAnnotator.parse_element, parse_list_eq_map]
  · rw [EntrezAnnotator.parse_element, parse_entries_eq_map]
  · rw [EntrezAnnotator.parse_element]

/-! ## Claim theorem about `_parse_clinical_significances` -/

theorem mem_ordered_dedup [DecidableEq α] :
    ∀ (n : Nat) (l : List α), l.length ≤ n → ∀ y,
      y ∈ ClinvarVariationAnnotator.ordered_dedup l → y ∈ l := by
  intro n
  induction n with
  | zero =>
    intro l hl y h
    have : l = [] := List.eq_nil_of_length_eq_zero (Nat.le_zero.mp hl)
    subst this
    rw [ClinvarVariationAnnotator.ordered_dedup] at h
    simp at h
  | succ n ih =>
    intro l hl y h
    match l with
    | [] =>
      rw [ClinvarVariationAnnotator.ordered_dedup] at h
      simp at h
    | x :: xs =>
      rw [ClinvarVariationAnnotator.ordered_dedup] at h
      rcases List.mem_cons.mp h with rfl | h2
      · exact List.mem_cons_self _ _
      · have hlen : (xs.filter (fun y => y ≠ x)).length ≤ n :=
          le_trans (List.length_filter_le _ xs) (by simp at hl; omega)
        have hmem := ih _ hlen y h2
        exact List.mem_cons_of_mem x (List.mem_filter.mp hmem).1

theorem ordered_dedup_nodup [DecidableEq α] :
    ∀ (n : Nat) (l : List α), l.length ≤ n →
      (ClinvarVariationAnnotator.ordered_dedup l).Nodup := by
  intro n
  induction n with
  | zero =>
    intro l hl
    have : l = [] := List.eq_nil_of_length_eq_zero (Nat.le_zero.mp hl)
    subst this
    rw [ClinvarVariationAnnotator.ordered_dedup]
    exact List.nodup_nil
  | succ n ih =>
    intro l hl
    match l with
    | [] =>
      rw [ClinvarVariationAnnotator.ordered_dedup]
      exact List.nodup_nil
    | x :: xs =>
      rw [ClinvarVariationAnnotator.ordered_dedup]
      have hlen : (xs.filter (fun y => y ≠ x)).length ≤ n :=
        le_trans (List.length_filter_le _ xs) (by simp at hl; omega)
      refine List.nodup_cons.mpr ⟨?_, ih _ hlen⟩
      intro hx
      have hmem := mem_ordered_dedup _ _ le_rfl x hx
      have := (List.mem_filter.mp hmem).2
      simp at this

theorem foldl_ins_eq :
    ∀ (l acc : List (List Char)),
      l.foldl (fun acc2 c => if c ∈ acc2 then acc2 else acc2 ++ [c]) acc
        = acc ++ ClinvarVariationAnnotator.ordered_dedup
            (l.filter (fun y => y ∉ acc)) := by
  intro l
  induction l with
  | nil =>
    intro acc
    rw [List.foldl_nil, List.filter_nil, ClinvarVariationAnnotator.ordered_dedup,
      List.append_nil]
  | cons x xs ih =>
    intro acc
    rw [List.foldl_cons]
    by_cases hx : x ∈ acc
    · rw [if_pos hx, ih]
      have hpred : (decide (x ∉ acc)) = false := by simp [hx]
      rw [List.filter_cons, hpred]
      simp only [Bool.false_eq_true, if_false]
    · rw [if_neg hx, ih]
      have hpred : (decide (x ∉ acc)) = true := by simp [hx]
      rw [List.filter_cons, hpred, if_pos rfl,
        ClinvarVariationAnnotator.ordered_dedup]
      have hff : xs.filter (fun y => decide (y ∉ acc ++ [x]))
          = (xs.filter (fun y => decide (y ∉ acc))).filter
              (fun y => decide (y ≠ x)) := by
        rw [List.filter_filter]
        apply List.filter_congr
        intro a _
        by_cases h1 : a = x <;> by_cases h2 : a ∈ acc <;>
          simp [h1, h2, List.mem_append]
      rw [← hff, List.append_assoc, List.singleton_append]

theorem parse_clinsig_eq (s : List Char) :
    ClinvarVariationAnnotator.parse_clinical_significances s
      = ClinvarVariationAnnotator.ordered_dedup
          (ClinvarVariationAnnotator.clinsig_tokens s) := by
  have h1 : ∀ (parts : List (List Char)) (acc : List (List Char)),
      parts.foldl (fun acc sig1 =>
        (ClinvarVariationAnnotator.pySplit ',' sig1).foldl (fun acc2 sig =>
          if ClinvarVariationAnnotator.pyStrip sig ∈ acc2 then acc2
          else acc2 ++ [ClinvarVariationAnnotator.pyStrip sig]) acc) acc
      = (((parts.map (ClinvarVariationAnnotator.pySplit ',')).flatten).map
          ClinvarVariationAnnotator.pyStrip).foldl
          (fun acc2 c => if c ∈ acc2 then acc2 else acc2 ++ [c]) acc := by
    intro parts
    induction parts with
    | nil => intro acc; rfl
    | cons p ps ih =>
      intro acc
      have hinner : (ClinvarVariationAnnotator.pySplit ',' p).foldl
          (fun acc2 sig =>
            if ClinvarVariationAnnotator.pyStrip sig ∈ acc2 then acc2
            else acc2 ++ [ClinvarVariationAnnotator.pyStrip sig]) acc
          = ((ClinvarVariationAnnotator.pySplit ',' p).map
              ClinvarVariationAnnotator.pyStrip).foldl
              (fun acc2 c => if c ∈ acc2 then acc2 else acc2 ++ [c]) acc := by
        rw [List.foldl_map]
      rw [List.foldl_cons, hinner, ih, List.map_cons, List.flatten_cons,
        List.map_append, List.foldl_append]
  have hf : ∀ (l : List (List Char)),
      l.filter (fun y => decide (y ∉ ([] : List (List Char)))) = l := by
    intro l
    induction l with
    | nil => rfl
    | cons a t iht =>
      rw [List.filter_cons]
      simp [iht]
  rw [ClinvarVariationAnnotator.parse_clinical_significances, h1]
  refine (foldl_ins_eq ((((ClinvarVariationAnnotator.pySplit '/' s).map
    (ClinvarVariationAnnotator.pySplit ',')).flatten).map
      ClinvarVariationAnnotator.pyStrip) []).trans ?_
  rw [List.nil_append]
  exact congrArg ClinvarVariationAnnotator.ordered_dedup (hf _)

/-- C8: `_parse_clinical_significances` splits on `'/'`, then each piece on
`','`, strips surrounding whitespace from every token, and returns the
tokens as an ordered deduplicated list — each distinct stripped value
appears exactly once, in order of first appearance; in particular
`'Pathogenic/Likely pathogenic, Affects, risk factor'` yields
`['Pathogenic', 'Likely pathogenic', 'Affects', 'risk factor']`. -/
theorem parse_clinsig_ordered_dedup :
    (∀ s : List Char,
        ClinvarVariationAnnotator.parse_clinical_significances s
          = ClinvarVariationAnnotator.ordered_dedup
              (ClinvarVariationAnnotator.clinsig_tokens s))
    ∧ (∀ s : List Char,
        (ClinvarVariationAnnotator.parse_clinical_significances s).Nodup)
    ∧ ClinvarVariationAnnotator.parse_clinical_significances
          "Pathogenic/Likely pathogenic, Affects, risk factor".toList
        = ["Pathogenic".toList, "Likely pathogenic".toList, "Affects".toList,
           "risk factor".toList] := by
  refine ⟨fun s => parse_clinsig_eq s, fun s => ?_, by decide⟩
  rw [parse_clinsig_eq s]
  exact ordered_dedup_nodup _ _ le_rfl

end Anota
